import Mathlib

/-!
# Verification of the Click `Monitor` element (adaptive hierarchical traffic counter)

Shallow embedding of the adaptive counter tree declared in
`src/elements/ip/monitor.hh`.  The data model (a 256-entry table of slots,
each slot either a scalar `value` with a `last_update` timestamp or — after a
split — a child table; one `base` per child table, recorded in `struct _stats`)
is taken from the header.  The bodies of `Monitor::update`, `Monitor::clean`
and the handlers are not part of the sources, so the operations are modelled
from the specification (`spec.md` §4.1–§4.4, §7).
-/

/-- One address byte. -/
abbrev Byte := Fin 256

/-- A counter slot (`struct _counter` in `monitor.hh`), fused with the child
table it may own (`struct _stats`): a slot is either a leaf holding a scalar
`value` and a `last_update` timestamp, or a split slot owning a child table,
which consists of one shared `base` (the aggregate at split time, stored once
per table as in `struct _stats`) and 256 child slots indexed by the next
address byte.  The root table of the monitor is represented as a `split` node
with base 0. -/
inductive Counter : Type
  | leaf (value : Int) (lastUpdate : Int)
  | split (base : Int) (slots : Byte → Counter)

/-- Monitor tree at creation: a root table whose 256 slots are zero-valued
unsplit leaves with `last_update = t0` (`clean` at construction). -/
def initTree (t0 : Int) : Counter :=
  .split 0 (fun _ => .leaf 0 t0)

/-- Modelled from the spec (§4.2, `value_at`; body of the read path is not in
`src/`): descend one address byte per split level, accumulating each level's
`base`, and add the terminal leaf's own value. -/
def valueAt : Counter → List Byte → Int
  | .leaf v _, _ => v
  | .split base _, [] => base
  | .split base slots, b :: rest => base + valueAt (slots b) rest

/-- Value of the terminal leaf slot reached by the descent (without the
accumulated bases); `none` when the address bytes run out at a split node. -/
def leafValueAt : Counter → List Byte → Option Int
  | .leaf v _, _ => some v
  | .split _ _, [] => none
  | .split _ slots, b :: rest => leafValueAt (slots b) rest

/-- `last_update` of the terminal leaf slot reached by the descent. -/
def lastUpdateAt : Counter → List Byte → Option Int
  | .leaf _ lu, _ => some lu
  | .split _ _, [] => none
  | .split _ slots, b :: rest => lastUpdateAt (slots b) rest

/-- Does the descent for the given address bytes end at a leaf slot? -/
def reachesLeaf : Counter → List Byte → Bool
  | .leaf _ _, _ => true
  | .split _ _, [] => false
  | .split _ slots, b :: rest => reachesLeaf (slots b) rest

/-- Subtree (slot) reached after following a byte path through split nodes. -/
def subtreeAt : Counter → List Byte → Option Counter
  | c, [] => some c
  | .leaf _ _, _ :: _ => none
  | .split _ slots, b :: rest => subtreeAt (slots b) rest

/-- Is the slot at the given byte path a split slot? -/
def isSplitAt (c : Counter) (p : List Byte) : Bool :=
  match subtreeAt c p with
  | some (.split _ _) => true
  | _ => false

/-- Sum of the `base` fields accumulated while descending a byte path. -/
def baseSum : Counter → List Byte → Int
  | _, [] => 0
  | .leaf _ _, _ :: _ => 0
  | .split base slots, b :: rest => base + baseSum (slots b) rest

/-- Result of one terminal update: the new tree, the sibling count returned
to the caller, and whether this update split a slot. -/
structure UpdResult where
  tree : Counter
  sibling : Int
  didSplit : Bool

/-- Modelled from the spec (§4.1, `Monitor::update`; the body is not in
`src/`): walk the tree, one address byte per split level.  At the terminal
leaf: return `prev = value` as the sibling count, add `delta` to the value,
compute `elapsed = now - last_update`, stamp `last_update = now`.  Split
decision: if `elapsed > 0`, the rate `value/elapsed` exceeds `thresh`
(stated multiplicatively: `thresh * elapsed < value`, the spec leaves exact
rounding open), and the slot is above the maximum depth of 4 (some address
bytes remain), convert the leaf into a split slot whose table carries
`base = value` and 256 fresh zero leaves stamped `now`. -/
def update (thresh delta now : Int) : Counter → List Byte → UpdResult
  | .leaf v lu, rest =>
      let v2 := v + delta
      let elapsed := now - lu
      if 0 < elapsed ∧ thresh * elapsed < v2 ∧ rest ≠ [] then
        ⟨.split v2 (fun _ => .leaf 0 now), v, true⟩
      else
        ⟨.leaf v2 now, v, false⟩
  | .split base slots, [] => ⟨.split base slots, 0, false⟩
  | .split base slots, b :: rest =>
      let r := update thresh delta now (slots b) rest
      ⟨.split base (Function.update slots b r.tree), r.sibling, r.didSplit⟩

/-- Modelled from the spec (§4.3, `Monitor::clean`; the body is not in
`src/`): set every leaf's value to the baseline and its `last_update` to
`now`; when `recurse` is set, keep split slots split, reset each table's
shared `base` to 0 and recurse, so that every aggregate reads back exactly
the baseline. -/
def clean (value now : Int) (recurse : Bool) : Counter → Counter
  | .leaf _ _ => .leaf value now
  | .split base slots =>
      if recurse then .split 0 (fun i => clean value now recurse (slots i))
      else .split base slots

/-- Number of nested split levels (a leaf slot contributes 0; a table adds
one level).  The depth of a slot reached by consuming `k` address bytes is
`k`; the spec's invariant "every path from root to a leaf slot has length
≤ 4" reads `depth c ≤ 4` for the root counter. -/
def depth : Counter → Nat
  | .leaf _ _ => 0
  | .split _ slots => 1 + Finset.univ.sup (fun i => depth (slots i))

/-- The split structure of a tree, with values and timestamps erased. -/
inductive Shape : Type
  | leaf
  | split (children : Byte → Shape)

/-- Erase values and timestamps, keeping only which slots are split. -/
def shape : Counter → Shape
  | .leaf _ _ => .leaf
  | .split _ slots => .split (fun i => shape (slots i))

/-- Remaining address bytes at the terminal leaf slot of the descent
(`some []` exactly when the terminal slot is at the maximum depth). -/
def restAt : Counter → List Byte → Option (List Byte)
  | .leaf _ _, rest => some rest
  | .split _ _, [] => none
  | .split _ slots, b :: rest => restAt (slots b) rest

/-- Modelled from the spec (§4.4, `Monitor::print`; the body is not in
`src/`): list every leaf cluster depth-first in slot-index order 0..255,
pairing the byte prefix that reaches it with its aggregate value (the
accumulated bases plus the leaf's own value). -/
def dump (acc : Int) (pre : List Byte) : Counter → List (List Byte × Int)
  | .leaf v _ => [(pre, acc + v)]
  | .split base slots =>
      (List.finRange 256).flatMap (fun i => dump (acc + base) (pre ++ [i]) (slots i))

/-- Run a sequence of updates aimed at one fixed address; each item is a
`(delta, now)` pair.  Returns the final tree, the list of sibling counts
returned by the successive calls, and whether any call split a slot. -/
def runUpdates (thresh : Int) (addr : List Byte) :
    Counter → List (Int × Int) → Counter × List Int × Bool
  | c, [] => (c, [], false)
  | c, (d, t) :: rest =>
      let r := update thresh d t c addr
      let rr := runUpdates thresh addr r.tree rest
      (rr.1, r.sibling :: rr.2.1, r.didSplit || rr.2.2)

/-- Run a sequence of updates at arbitrary addresses; each item is an
`(address, delta, now)` triple.  Returns the final tree. -/
def runSeq (thresh : Int) : Counter → List (List Byte × Int × Int) → Counter
  | c, [] => c
  | c, (addr, d, t) :: rest => runSeq thresh (update thresh d t c addr).tree rest

/-- Partial sums of a list of deltas, excluding the grand total:
`runningSums [d1, d2, ..., dN] = [0, d1, d1+d2, ..., d1+...+d(N-1)]`. -/
def runningSums : List Int → List Int
  | [] => []
  | d :: ds => 0 :: (runningSums ds).map (fun x => d + x)

/-- Smallest value of the C `int` that holds a slot's value. -/
def intMin : Int := -(2 ^ 31)

/-- Largest value of the C `int` that holds a slot's value. -/
def intMax : Int := 2 ^ 31 - 1

/-- Modelled from the spec (§7, `Monitor::reset_write_handler`; the body is
not in `src/`): a reset whose baseline does not fit the slot-value
representation is an input error reported to the caller and the tree is left
untouched; otherwise the whole tree is cleaned to the baseline.  Returns the
resulting tree and the error, if any. -/
def reset_write_handler (b now : Int) (c : Counter) : Counter × Option String :=
  if b < intMin ∨ intMax < b then (c, some "reset value out of range")
  else (clean b now true c, none)

/-- Index of the source-address field (`#define SRC 0`). -/
def SRC : Fin 2 := 0

/-- Index of the destination-address field (`#define DST 1`). -/
def DST : Fin 2 := 1

/-- Per-input configuration (`struct _inp` in `monitor.hh`): the signed
change applied per packet and which address field to read. -/
structure Inp where
  change : Int
  srcdst : Fin 2

/-- The two address fields of a packet that the monitor can read. -/
structure Packet where
  src : List Byte
  dst : List Byte

/-- Modelled from the spec (§4.5, `Monitor::push`; the body is not in
`src/`): select the configured address field of the packet, apply the
input's configured delta at that address, and return the update result
(whose sibling count is attached to the packet as its annotation). -/
def push (thresh : Int) (inp : Inp) (now : Int) (c : Counter) (p : Packet) : UpdResult :=
  update thresh inp.change now c (if inp.srcdst = DST then p.dst else p.src)

/-- A concrete tree split all the way to the maximum depth along every
path: its leaves sit at depth 4. -/
def deepTree : Counter :=
  .split 0 (fun _ => .split 0 (fun _ => .split 0 (fun _ => .split 0 (fun _ => .leaf 0 0))))

/-- A concrete tree whose slot for first byte 10 is split with table base 11
(children fresh at time 2), all other first-byte slots fresh leaves. -/
def splitTen : Counter :=
  .split 0 (Function.update (fun _ => Counter.leaf 0 0) 10
    (.split 11 (fun _ => Counter.leaf 0 2)))

/-- The `Monitor(10, DST 1)` input binding of the spec's example: read the
destination address, add 1 per packet. -/
def dstPlusOne : Inp := ⟨1, DST⟩

/-- A packet whose destination has first byte 10 and second byte `b2`. -/
def pktTo (b2 : Byte) : Packet := ⟨[9, 9, 9, 9], [10, b2, 0, 0]⟩

/-- The spec's example run, first stage: ten packets, destinations sharing
first byte 10 (second bytes 1..10), all observed during second 1, pushed
through a fresh `Monitor(10, DST 1)`. -/
def afterTen : Counter :=
  ([1, 2, 3, 4, 5, 6, 7, 8, 9, 10] : List Byte).foldl
    (fun c b2 => (push 10 dstPlusOne 1 c (pktTo b2)).tree) (initTree 0)

/-- The spec's example run, second stage: the eleventh packet, again with
destination first byte 10, observed at second 2. -/
def afterEleven : Counter := (push 10 dstPlusOne 2 afterTen (pktTo 11)).tree

set_option maxRecDepth 40000

theorem update_leaf (th d n v lu : Int) (rest : List Byte) :
    update th d n (.leaf v lu) rest =
      if 0 < n - lu ∧ th * (n - lu) < v + d ∧ rest ≠ [] then
        ⟨.split (v + d) (fun _ => .leaf 0 n), v, true⟩
      else ⟨.leaf (v + d) n, v, false⟩ := rfl

theorem update_split_nil (th d n base : Int) (slots : Byte → Counter) :
    update th d n (.split base slots) [] = ⟨.split base slots, 0, false⟩ := rfl

theorem update_split_cons (th d n base : Int) (slots : Byte → Counter)
    (b : Byte) (rest : List Byte) :
    update th d n (.split base slots) (b :: rest) =
      ⟨.split base (Function.update slots b (update th d n (slots b) rest).tree),
        (update th d n (slots b) rest).sibling,
        (update th d n (slots b) rest).didSplit⟩ := rfl

theorem update_leaf_sibling (th d n v lu : Int) (rest : List Byte) :
    (update th d n (.leaf v lu) rest).sibling = v := by
  rw [update_leaf]
  split <;> rfl

theorem update_sibling (th d n : Int) (addr : List Byte) :
    ∀ (c : Counter) (v : Int), leafValueAt c addr = some v →
      (update th d n c addr).sibling = v := by
  induction addr with
  | nil =>
      intro c v h
      cases c with
      | leaf v2 lu =>
          simp only [leafValueAt, Option.some.injEq] at h
          rw [update_leaf_sibling, h]
      | split base slots => simp [leafValueAt] at h
  | cons b rest ih =>
      intro c v h
      cases c with
      | leaf v2 lu =>
          simp only [leafValueAt, Option.some.injEq] at h
          rw [update_leaf_sibling, h]
      | split base slots =>
          rw [update_split_cons]
          exact ih (slots b) v h

theorem update_leaf_not_split (th d n v lu : Int) (rest : List Byte)
    (hs : (update th d n (.leaf v lu) rest).didSplit = false) :
    (update th d n (.leaf v lu) rest).tree = .leaf (v + d) n := by
  by_cases hc : 0 < n - lu ∧ th * (n - lu) < v + d ∧ rest ≠ []
  · rw [update_leaf, if_pos hc] at hs
    exact absurd hs (by simp)
  · rw [update_leaf, if_neg hc]

theorem update_leaf_split (th d n v lu : Int) (rest : List Byte)
    (hs : (update th d n (.leaf v lu) rest).didSplit = true) :
    (update th d n (.leaf v lu) rest).tree = .split (v + d) (fun _ => .leaf 0 n)
      ∧ 0 < n - lu ∧ th * (n - lu) < v + d ∧ rest ≠ [] := by
  by_cases hc : 0 < n - lu ∧ th * (n - lu) < v + d ∧ rest ≠ []
  · rw [update_leaf, if_pos hc]
    exact ⟨rfl, hc⟩
  · rw [update_leaf, if_neg hc] at hs
    exact absurd hs (by simp)

theorem update_no_split_leafValue (th d n : Int) (addr : List Byte) :
    ∀ (c : Counter) (v : Int), leafValueAt c addr = some v →
      (update th d n c addr).didSplit = false →
      leafValueAt (update th d n c addr).tree addr = some (v + d) := by
  induction addr with
  | nil =>
      intro c v h hs
      cases c with
      | leaf v2 lu =>
          simp only [leafValueAt, Option.some.injEq] at h
          rw [update_leaf_not_split th d n v2 lu [] hs]
          simp [leafValueAt, h]
      | split base slots => simp [leafValueAt] at h
  | cons b rest ih =>
      intro c v h hs
      cases c with
      | leaf v2 lu =>
          simp only [leafValueAt, Option.some.injEq] at h
          rw [update_leaf_not_split th d n v2 lu (b :: rest) hs]
          simp [leafValueAt, h]
      | split base slots =>
          simp only [leafValueAt] at h
          rw [update_split_cons] at hs ⊢
          simp only [leafValueAt, Function.update_same]
          exact ih (slots b) v h hs

theorem didSplit_reachesLeaf (th d n : Int) (addr : List Byte) :
    ∀ (c : Counter), (update th d n c addr).didSplit = true →
      reachesLeaf c addr = true := by
  induction addr with
  | nil =>
      intro c h
      cases c with
      | leaf v lu => simp [reachesLeaf]
      | split base slots => rw [update_split_nil] at h; simp at h
  | cons b rest ih =>
      intro c h
      cases c with
      | leaf v lu => simp [reachesLeaf]
      | split base slots =>
          rw [update_split_cons] at h
          simp only [reachesLeaf]
          exact ih (slots b) h

theorem valueAt_leaf (v lu : Int) (rest : List Byte) :
    valueAt (.leaf v lu) rest = v := rfl

theorem valueAt_update (th d n : Int) (addr : List Byte) :
    ∀ (c : Counter), reachesLeaf c addr = true →
      valueAt (update th d n c addr).tree addr = valueAt c addr + d := by
  induction addr with
  | nil =>
      intro c h
      cases c with
      | leaf v lu =>
          have hs : (update th d n (Counter.leaf v lu) []).didSplit = false := by
            by_cases hc : 0 < n - lu ∧ th * (n - lu) < v + d ∧ ([] : List Byte) ≠ []
            · exact absurd rfl hc.2.2
            · rw [update_leaf, if_neg hc]
          rw [update_leaf_not_split th d n v lu [] hs]
          simp [valueAt]
      | split base slots => simp [reachesLeaf] at h
  | cons b rest ih =>
      intro c h
      cases c with
      | leaf v lu =>
          by_cases hc : 0 < n - lu ∧ th * (n - lu) < v + d ∧ (b :: rest : List Byte) ≠ []
          · rw [update_leaf, if_pos hc]
            simp [valueAt]
          · rw [update_leaf, if_neg hc]
            simp [valueAt]
      | split base slots =>
          simp only [reachesLeaf] at h
          rw [update_split_cons]
          simp only [valueAt, Function.update_same]
          rw [ih (slots b) h]
          ring

/-- C2: immediately after an update splits a leaf slot (at any depth), the
aggregate read back at the triggering address equals the pre-split aggregate
of that slot plus the just-applied delta — the triggering update is neither
lost nor double-counted, because the child table's base records the slot's
value at split time and reads accumulate bases through every split level. -/
theorem split_preserves_accounting (th d n : Int) (c : Counter) (addr : List Byte)
    (h : (update th d n c addr).didSplit = true) :
    valueAt (update th d n c addr).tree addr = valueAt c addr + d :=
  valueAt_update th d n addr c (didSplit_reachesLeaf th d n addr c h)

theorem split_preserves_accounting_witness :
    (update 0 1 1 (initTree 0) [3, 0, 0, 0]).didSplit = true ∧
    valueAt (update 0 1 1 (initTree 0) [3, 0, 0, 0]).tree [3, 0, 0, 0] =
      valueAt (initTree 0) [3, 0, 0, 0] + 1 :=
  ⟨by decide, split_preserves_accounting 0 1 1 (initTree 0) [3, 0, 0, 0] (by decide)⟩

/-- C9: one `base` is stored per child table (`struct _stats`), shared by all
256 slots of that table: for any split slot reached by a byte path `p`, every
address extending `p` (in particular any two addresses that first diverge at
or below that split point) reads the identical base contribution
`baseSum c p + tb` from the levels up to and including that table. -/
theorem shared_base_per_table (c : Counter) (p : List Byte) (tb : Int)
    (ts : Byte → Counter) (h : subtreeAt c p = some (.split tb ts))
    (b : Byte) (r : List Byte) :
    valueAt c (p ++ b :: r) = baseSum c p + (tb + valueAt (ts b) r) := by
  induction p generalizing c with
  | nil =>
      simp only [subtreeAt, Option.some.injEq] at h
      subst h
      simp [valueAt, baseSum]
  | cons q p2 ih =>
      cases c with
      | leaf v lu => simp [subtreeAt] at h
      | split base slots =>
          simp only [subtreeAt] at h
          have hg : (q :: p2) ++ b :: r = q :: (p2 ++ b :: r) := rfl
          rw [hg]
          simp only [valueAt, baseSum]
          rw [ih (slots q) h]
          ring

theorem shared_base_per_table_witness :
    subtreeAt splitTen [10] = some (.split 11 (fun _ => Counter.leaf 0 2)) ∧
    valueAt splitTen ([10] ++ 5 :: [0, 0]) =
      baseSum splitTen [10] + (11 + valueAt ((fun _ => Counter.leaf 0 2) 5) [0, 0]) :=
  ⟨rfl, shared_base_per_table splitTen [10] 11 (fun _ => Counter.leaf 0 2) rfl 5 [0, 0]⟩

theorem no_split_same_second (th d now : Int) (addr : List Byte) :
    ∀ c, lastUpdateAt c addr = some now → (update th d now c addr).didSplit = false := by
  induction addr with
  | nil =>
      intro c h
      cases c with
      | leaf v lu =>
          simp only [lastUpdateAt, Option.some.injEq] at h
          rw [update_leaf, if_neg]
          rintro ⟨h1, -, -⟩
          omega
      | split base slots => rw [update_split_nil]
  | cons b rest ih =>
      intro c h
      cases c with
      | leaf v lu =>
          simp only [lastUpdateAt, Option.some.injEq] at h
          rw [update_leaf, if_neg]
          rintro ⟨h1, -, -⟩
          omega
      | split base slots =>
          rw [update_split_cons]
          exact ih (slots b) h

theorem split_needs_elapsed (th d now : Int) (addr : List Byte) :
    ∀ c, (update th d now c addr).didSplit = true →
      ∃ lu, lastUpdateAt c addr = some lu ∧ lu + 1 ≤ now := by
  induction addr with
  | nil =>
      intro c h
      cases c with
      | leaf v lu =>
          have h2 := (update_leaf_split th d now v lu [] h).2.1
          exact ⟨lu, rfl, by omega⟩
      | split base slots => rw [update_split_nil] at h; exact absurd h (by simp)
  | cons b rest ih =>
      intro c h
      cases c with
      | leaf v lu =>
          have h2 := (update_leaf_split th d now v lu (b :: rest) h).2.1
          exact ⟨lu, rfl, by omega⟩
      | split base slots =>
          rw [update_split_cons] at h
          exact ih (slots b) h

/-- C10: timestamps are whole-second integers; an update whose `now` equals
the terminal slot's `last_update` (two updates within the same second)
observes `elapsed = 0` and can never split, however large the value got; and
any update that does split must come at least one full second after the
slot's previous update. -/
theorem same_second_never_splits :
    (∀ (th d now : Int) (c : Counter) (addr : List Byte),
        lastUpdateAt c addr = some now → (update th d now c addr).didSplit = false) ∧
    (∀ (th d now : Int) (c : Counter) (addr : List Byte),
        (update th d now c addr).didSplit = true →
        ∃ lu, lastUpdateAt c addr = some lu ∧ lu + 1 ≤ now) :=
  ⟨fun th d now c addr h => no_split_same_second th d now addr c h,
   fun th d now c addr h => split_needs_elapsed th d now addr c h⟩

theorem same_second_never_splits_witness :
    (update 10 999 0 (initTree 0) [7, 0, 0, 0]).didSplit = false ∧
    (∃ lu, lastUpdateAt (initTree 0) [8, 0, 0, 0] = some lu ∧ lu + 1 ≤ 1) :=
  ⟨same_second_never_splits.1 10 999 0 (initTree 0) [7, 0, 0, 0] (by decide),
   same_second_never_splits.2 0 1 1 (initTree 0) [8, 0, 0, 0] (by decide)⟩

theorem reachesLeaf_of_depth_le (addr : List Byte) :
    ∀ c : Counter, depth c ≤ addr.length → reachesLeaf c addr = true := by
  induction addr with
  | nil =>
      intro c h
      cases c with
      | leaf v lu => simp [reachesLeaf]
      | split base slots => simp [depth] at h
  | cons b rest ih =>
      intro c h
      cases c with
      | leaf v lu => simp [reachesLeaf]
      | split base slots =>
          simp only [reachesLeaf]
          apply ih
          simp only [depth, List.length_cons] at h
          have hb : depth (slots b) ≤ Finset.univ.sup (fun i => depth (slots i)) :=
            Finset.le_sup (f := fun i => depth (slots i)) (Finset.mem_univ b)
          omega

theorem valueAt_clean_reaches (bl now : Int) (addr : List Byte) :
    ∀ c, reachesLeaf c addr = true → valueAt (clean bl now true c) addr = bl := by
  induction addr with
  | nil =>
      intro c h
      cases c with
      | leaf v lu => simp [clean, valueAt]
      | split base slots => simp [reachesLeaf] at h
  | cons b rest ih =>
      intro c h
      cases c with
      | leaf v lu => simp [clean, valueAt]
      | split base slots =>
          simp only [reachesLeaf] at h
          simp only [clean, if_pos]
          simp only [valueAt]
          rw [ih (slots b) h]
          ring

/-- C5: for every tree whose split depth respects the 4-byte bound and every
4-byte address, the aggregate read immediately after `reset(b)` is exactly
`b`: reset writes the baseline into every leaf and zeroes each split level's
base, so the sum along any path is the baseline. -/
theorem valueAt_after_reset (bl now : Int) (c : Counter) (addr : List Byte)
    (hd : depth c ≤ 4) (ha : addr.length = 4) :
    valueAt (clean bl now true c) addr = bl :=
  valueAt_clean_reaches bl now addr c
    (reachesLeaf_of_depth_le addr c (by omega))

theorem valueAt_after_reset_witness :
    depth (initTree 0) ≤ 4 ∧ ([1, 2, 3, 4] : List Byte).length = 4 ∧
    valueAt (clean 7 5 true (initTree 0)) [1, 2, 3, 4] = 7 :=
  ⟨by decide, by decide, valueAt_after_reset 7 5 (initTree 0) [1, 2, 3, 4] (by decide) (by decide)⟩

/-- C8: a reset whose baseline does not fit the slot-value representation is
rejected: the handler reports an input error to the caller and returns the
tree unmodified — no slot's value, base or timestamp changes. -/
theorem reset_overflow_rejected (b now : Int) (c : Counter)
    (h : b < intMin ∨ intMax < b) :
    (reset_write_handler b now c).1 = c ∧
      ((reset_write_handler b now c).2).isSome = true := by
  unfold reset_write_handler
  rw [if_pos h]
  exact ⟨rfl, rfl⟩

theorem reset_overflow_rejected_witness :
    ((2 : Int) ^ 31 < intMin ∨ intMax < (2 : Int) ^ 31) ∧
    (reset_write_handler (2 ^ 31) 0 (initTree 3)).1 = initTree 3 ∧
    ((reset_write_handler (2 ^ 31) 0 (initTree 3)).2).isSome = true :=
  ⟨Or.inr (by decide), reset_overflow_rejected (2 ^ 31) 0 (initTree 3) (Or.inr (by decide))⟩

theorem runUpdates_cons (th : Int) (addr : List Byte) (c : Counter) (d t : Int)
    (items : List (Int × Int)) :
    runUpdates th addr c ((d, t) :: items) =
      ((runUpdates th addr (update th d t c addr).tree items).1,
       (update th d t c addr).sibling ::
         (runUpdates th addr (update th d t c addr).tree items).2.1,
       (update th d t c addr).didSplit ||
         (runUpdates th addr (update th d t c addr).tree items).2.2) := rfl

theorem runUpdates_siblings (th : Int) (addr : List Byte) :
    ∀ (items : List (Int × Int)) (c : Counter) (v : Int),
      leafValueAt c addr = some v →
      (runUpdates th addr c items).2.2 = false →
      (runUpdates th addr c items).2.1 =
        (runningSums (items.map Prod.fst)).map (fun x => v + x) := by
  intro items
  induction items with
  | nil => intro c v h hs; simp [runUpdates, runningSums]
  | cons it rest ih =>
      obtain ⟨d, t⟩ := it
      intro c v h hs
      rw [runUpdates_cons] at hs ⊢
      simp only at hs ⊢
      have h1 : (update th d t c addr).didSplit = false := by
        cases hsp : (update th d t c addr).didSplit
        · rfl
        · rw [hsp] at hs; simp at hs
      have h2 : (runUpdates th addr (update th d t c addr).tree rest).2.2 = false := by
        rw [h1] at hs; simpa using hs
      have hsib := update_sibling th d t addr c v h
      have hlv := update_no_split_leafValue th d t addr c v h h1
      rw [ih (update th d t c addr).tree (v + d) hlv h2, hsib]
      simp [runningSums, List.map_map, Function.comp_def, add_assoc, add_zero]

/-- C1: starting from the fresh tree, a sequence of N updates aimed at one
4-byte address whose cluster never splits during the run returns the sibling
counts `0, d1, d1+d2, ..., d1+...+d(N-1)`: each call returns the slot's
value as it was before that call's own delta is added. -/
theorem sibling_counts_prefix_sums (t0 th : Int) (addr : List Byte)
    (items : List (Int × Int)) (ha : addr.length = 4)
    (hns : (runUpdates th addr (initTree t0) items).2.2 = false) :
    (runUpdates th addr (initTree t0) items).2.1 = runningSums (items.map Prod.fst) := by
  have h0 : leafValueAt (initTree t0) addr = some 0 := by
    cases addr with
    | nil => simp at ha
    | cons b rest => rfl
  rw [runUpdates_siblings th addr items (initTree t0) 0 h0 hns]
  have hz : (fun x : Int => 0 + x) = id := funext fun x => zero_add x
  rw [hz, List.map_id]

theorem sibling_counts_prefix_sums_witness :
    ([5, 6, 7, 8] : List Byte).length = 4 ∧
    (runUpdates 10 [5, 6, 7, 8] (initTree 0) [(2, 1), (3, 1), (-1, 1)]).2.2 = false ∧
    (runUpdates 10 [5, 6, 7, 8] (initTree 0) [(2, 1), (3, 1), (-1, 1)]).2.1 =
      runningSums (([(2, 1), (3, 1), (-1, 1)] : List (Int × Int)).map Prod.fst) :=
  ⟨by decide, by decide,
   sibling_counts_prefix_sums 0 10 [5, 6, 7, 8] [(2, 1), (3, 1), (-1, 1)]
     (by decide) (by decide)⟩

theorem depth_fresh_table (x a b : Int) :
    depth (.split x (fun _ => Counter.leaf a b)) = 1 := by
  have h : (Finset.univ.sup fun i : Byte => depth (Counter.leaf a b)) = 0 := by
    simp [depth]
  simp [depth, h]

theorem depth_update_le (th d n : Int) (addr : List Byte) :
    ∀ c, depth (update th d n c addr).tree ≤ max (depth c) addr.length := by
  induction addr with
  | nil =>
      intro c
      cases c with
      | leaf v lu =>
          have hs : (update th d n (Counter.leaf v lu) []).didSplit = false := by
            by_cases hc : 0 < n - lu ∧ th * (n - lu) < v + d ∧ ([] : List Byte) ≠ []
            · exact absurd rfl hc.2.2
            · rw [update_leaf, if_neg hc]
          rw [update_leaf_not_split th d n v lu [] hs]
          simp [depth]
      | split base slots =>
          rw [update_split_nil]
          exact le_max_left _ _
  | cons b rest ih =>
      intro c
      cases c with
      | leaf v lu =>
          by_cases hc : 0 < n - lu ∧ th * (n - lu) < v + d ∧ (b :: rest : List Byte) ≠ []
          · rw [update_leaf, if_pos hc]
            simp only [depth_fresh_table, List.length_cons]
            have h1 : rest.length + 1 ≤ max (depth (Counter.leaf v lu)) (rest.length + 1) :=
              le_max_right _ _
            omega
          · rw [update_leaf, if_neg hc]
            simp [depth]
      | split base slots =>
          rw [update_split_cons]
          simp only [depth, List.length_cons]
          have hsup : (Finset.univ.sup fun i =>
              depth (Function.update slots b (update th d n (slots b) rest).tree i))
              ≤ max (Finset.univ.sup fun i => depth (slots i)) rest.length := by
            apply Finset.sup_le
            intro i _
            by_cases hib : i = b
            · subst hib
              rw [Function.update_same]
              refine le_trans (ih (slots i)) ?_
              exact max_le_max
                (Finset.le_sup (f := fun j => depth (slots j)) (Finset.mem_univ i))
                (le_refl _)
            · rw [Function.update_noteq hib]
              exact le_trans
                (Finset.le_sup (f := fun j => depth (slots j)) (Finset.mem_univ i))
                (le_max_left _ _)
          omega

theorem update_at_max_depth (th d n : Int) (addr : List Byte) :
    ∀ c, restAt c addr = some [] →
      shape (update th d n c addr).tree = shape c ∧
        (update th d n c addr).didSplit = false := by
  induction addr with
  | nil =>
      intro c h
      cases c with
      | leaf v lu =>
          have hs : (update th d n (Counter.leaf v lu) []).didSplit = false := by
            by_cases hc : 0 < n - lu ∧ th * (n - lu) < v + d ∧ ([] : List Byte) ≠ []
            · exact absurd rfl hc.2.2
            · rw [update_leaf, if_neg hc]
          refine ⟨?_, hs⟩
          rw [update_leaf_not_split th d n v lu [] hs]
          simp [shape]
      | split base slots => simp [restAt] at h
  | cons b rest ih =>
      intro c h
      cases c with
      | leaf v lu => simp [restAt] at h
      | split base slots =>
          simp only [restAt] at h
          have hrec := ih (slots b) h
          rw [update_split_cons]
          refine ⟨?_, hrec.2⟩
          simp only [shape]
          congr 1
          funext i
          by_cases hib : i = b
          · subst hib
            rw [Function.update_same]
            exact hrec.1
          · rw [Function.update_noteq hib]

/-- C3: (1) the fresh tree respects the 4-level depth bound, and an update
on a tree respecting the bound, aimed at an address of at most 4 bytes,
yields a tree still within the bound — so along every reachable state no
slot ever reaches depth greater than 4; (2) an update whose descent ends at
a slot that has consumed all 4 address bytes (a depth-4 slot) never splits
and leaves the tree structure unchanged, whatever the rate condition says. -/
theorem depth_bound_and_max_depth_noop :
    (∀ t0 : Int, depth (initTree t0) ≤ 4) ∧
    (∀ (th d n : Int) (c : Counter) (addr : List Byte),
        depth c ≤ 4 → addr.length ≤ 4 → depth (update th d n c addr).tree ≤ 4) ∧
    (∀ (th d n : Int) (c : Counter) (addr : List Byte),
        restAt c addr = some [] →
        shape (update th d n c addr).tree = shape c ∧
          (update th d n c addr).didSplit = false) :=
  ⟨fun t0 => le_trans (le_of_eq (depth_fresh_table 0 0 t0)) (by omega),
   fun th d n c addr hd ha =>
      le_trans (depth_update_le th d n addr c) (max_le hd ha),
   fun th d n c addr h => update_at_max_depth th d n addr c h⟩

theorem depth_bound_and_max_depth_noop_witness :
    depth (initTree 0) ≤ 4 ∧ ([1, 2, 3, 4] : List Byte).length ≤ 4 ∧
    depth (update 10 1 1 (initTree 0) [1, 2, 3, 4]).tree ≤ 4 ∧
    restAt deepTree [0, 0, 0, 0] = some [] ∧
    (shape (update 10 1 1 deepTree [0, 0, 0, 0]).tree = shape deepTree ∧
      (update 10 1 1 deepTree [0, 0, 0, 0]).didSplit = false) :=
  ⟨by decide, by decide,
   depth_bound_and_max_depth_noop.2.1 10 1 1 (initTree 0) [1, 2, 3, 4] (by decide) (by decide),
   by decide,
   depth_bound_and_max_depth_noop.2.2 10 1 1 deepTree [0, 0, 0, 0] (by decide)⟩

theorem update_zero_keeps (th n : Int) (addr : List Byte) (f : Byte → Counter)
    (hth : 0 ≤ th) (hf : ∀ i, ∃ lu, f i = Counter.leaf 0 lu) :
    ∃ g, (update th 0 n (Counter.split 0 f) addr).tree = Counter.split 0 g ∧
      ∀ i, ∃ lu, g i = Counter.leaf 0 lu := by
  cases addr with
  | nil => exact ⟨f, by rw [update_split_nil], hf⟩
  | cons b rest =>
      rw [update_split_cons]
      obtain ⟨lu, hlu⟩ := hf b
      rw [hlu]
      have hs : (update th 0 n (Counter.leaf 0 lu) rest).didSplit = false := by
        by_cases hc : 0 < n - lu ∧ th * (n - lu) < 0 + 0 ∧ rest ≠ []
        · exfalso
          have hnn : 0 ≤ th * (n - lu) := mul_nonneg hth (le_of_lt hc.1)
          have hlt := hc.2.1
          simp only [add_zero] at hlt
          linarith
        · rw [update_leaf, if_neg hc]
      have ht := update_leaf_not_split th 0 n 0 lu rest hs
      refine ⟨Function.update f b (update th 0 n (Counter.leaf 0 lu) rest).tree, rfl, ?_⟩
      intro i
      by_cases hib : i = b
      · subst hib
        rw [Function.update_same, ht]
        exact ⟨n, by norm_num⟩
      · rw [Function.update_noteq hib]
        exact hf i

theorem runSeq_zero_deltas (th : Int) (hth : 0 ≤ th) :
    ∀ (items : List (List Byte × Int × Int)) (f : Byte → Counter),
      (∀ x ∈ items, x.2.1 = 0) →
      (∀ i, ∃ lu, f i = Counter.leaf 0 lu) →
      ∃ g, runSeq th (Counter.split 0 f) items = Counter.split 0 g ∧
        ∀ i, ∃ lu, g i = Counter.leaf 0 lu := by
  intro items
  induction items with
  | nil => intro f _ hf; exact ⟨f, rfl, hf⟩
  | cons it rest ih =>
      obtain ⟨addr, d, t⟩ := it
      intro f hall hf
      have hd : d = 0 := hall (addr, d, t) (List.mem_cons_self _ _)
      subst hd
      obtain ⟨g1, hg1, hz1⟩ := update_zero_keeps th t addr f hth hf
      have hstep : runSeq th (Counter.split 0 f) ((addr, 0, t) :: rest) =
          runSeq th (update th 0 t (Counter.split 0 f) addr).tree rest := rfl
      rw [hstep, hg1]
      exact ih g1 (fun x hx => hall x (List.mem_cons_of_mem _ hx)) hz1

/-- C6: with a nonnegative threshold, any sequence of updates all carrying
delta 0, run from the fresh tree, never converts a leaf slot into a split
slot (the tree keeps exactly its shape) and every aggregate read stays at
the creation baseline 0. -/
theorem zero_delta_updates_never_split (t0 th : Int)
    (items : List (List Byte × Int × Int)) (hth : 0 ≤ th)
    (h0 : ∀ x ∈ items, x.2.1 = 0) :
    shape (runSeq th (initTree t0) items) = shape (initTree t0) ∧
    ∀ addr, valueAt (runSeq th (initTree t0) items) addr = 0 := by
  obtain ⟨g, hg, hz⟩ :=
    runSeq_zero_deltas th hth items (fun _ => Counter.leaf 0 t0) h0 (fun _ => ⟨t0, rfl⟩)
  have hg2 : runSeq th (initTree t0) items = Counter.split 0 g := hg
  constructor
  · rw [hg2]
    simp only [shape, initTree]
    congr 1
    funext i
    obtain ⟨lu, hlu⟩ := hz i
    rw [hlu]
    simp [shape]
  · intro addr
    rw [hg2]
    cases addr with
    | nil => rfl
    | cons b rest =>
        obtain ⟨lu, hlu⟩ := hz b
        simp [valueAt, hlu]

theorem zero_delta_updates_never_split_witness :
    shape (runSeq 3 (initTree 0) [([1, 2, 3, 4], 0, 5)]) = shape (initTree 0) ∧
    valueAt (runSeq 3 (initTree 0) [([1, 2, 3, 4], 0, 5)]) [9, 9, 9, 9] = 0 :=
  ⟨(zero_delta_updates_never_split 0 3 [([1, 2, 3, 4], 0, 5)] (by decide) (by decide)).1,
   (zero_delta_updates_never_split 0 3 [([1, 2, 3, 4], 0, 5)] (by decide) (by decide)).2
     [9, 9, 9, 9]⟩

theorem shape_clean (bl now : Int) : ∀ c, shape (clean bl now true c) = shape c := by
  intro c
  induction c with
  | leaf v lu => rfl
  | split base slots ih =>
      show shape (.split 0 (fun i => clean bl now true (slots i))) = _
      simp only [shape]
      congr 1
      funext i
      exact ih i

theorem dump_clean_keys (bl now : Int) :
    ∀ (c : Counter) (acc acc2 : Int) (pre : List Byte),
      (dump acc pre (clean bl now true c)).map Prod.fst =
        (dump acc2 pre c).map Prod.fst := by
  intro c
  induction c with
  | leaf v lu => intro acc acc2 pre; rfl
  | split base slots ih =>
      intro acc acc2 pre
      show ((dump acc pre (.split 0 (fun i => clean bl now true (slots i)))).map Prod.fst) = _
      simp only [dump]
      rw [List.map_flatMap, List.map_flatMap]
      congr 1
      funext i
      exact ih i (acc + 0) (acc2 + base) (pre ++ [i])

theorem dump_clean_values (bl now : Int) :
    ∀ (c : Counter) (acc : Int) (pre : List Byte),
      ∀ x ∈ dump acc pre (clean bl now true c), x.2 = acc + bl := by
  intro c
  induction c with
  | leaf v lu =>
      intro acc pre x hx
      simp only [clean, dump, List.mem_singleton] at hx
      rw [hx]
  | split base slots ih =>
      intro acc pre x hx
      have hx2 : x ∈ dump acc pre (.split 0 (fun i => clean bl now true (slots i))) := hx
      simp only [dump, List.mem_flatMap] at hx2
      obtain ⟨i, -, hxi⟩ := hx2
      have := ih i (acc + 0) (pre ++ [i]) x hxi
      simpa using this

/-- C7: reset touches values and timestamps only, never the tree shape:
after `reset(0)` the split structure is unchanged, the textual dump lists
exactly the same leaf clusters (same prefixes, same order), and every listed
aggregate value is 0. -/
theorem reset_preserves_structure (c : Counter) (now : Int) :
    shape (clean 0 now true c) = shape c ∧
    (dump 0 [] (clean 0 now true c)).map Prod.fst = (dump 0 [] c).map Prod.fst ∧
    ∀ x ∈ dump 0 [] (clean 0 now true c), x.2 = 0 := by
  refine ⟨shape_clean 0 now c, dump_clean_keys 0 now c 0 0 [], ?_⟩
  intro x hx
  have := dump_clean_values 0 now c 0 [] x hx
  simpa using this

theorem reset_preserves_structure_witness :
    shape (clean 0 7 true (Counter.leaf 3 0)) = shape (Counter.leaf 3 0) ∧
    (dump 0 [] (clean 0 7 true (Counter.leaf 3 0))).map Prod.fst =
      (dump 0 [] (Counter.leaf 3 0)).map Prod.fst ∧
    ((([] : List Byte), (0 : Int)) ∈ dump 0 [] (clean 0 7 true (Counter.leaf 3 0))) ∧
    ((([] : List Byte), (0 : Int)).2 = 0) :=
  ⟨(reset_preserves_structure (Counter.leaf 3 0) 7).1,
   (reset_preserves_structure (Counter.leaf 3 0) 7).2.1,
   by decide,
   (reset_preserves_structure (Counter.leaf 3 0) 7).2.2 ([], 0) (by decide)⟩

/-- C4: the spec's example, `Monitor(10, DST 1)`: ten packets to
destinations sharing first byte 10 observed during second 1 leave the
first-byte slot `10.*.*.*` unsplit; the eleventh packet, one second later,
pushes the cluster's rate to 11/sec > 10 and splits that slot; a subsequent
packet to `10.5.*.*` then lands in a fresh, unsplit sub-slot (leaf value 0,
sibling count 0). -/
theorem example_split_scenario :
    isSplitAt afterTen [10] = false ∧
    isSplitAt afterEleven [10] = true ∧
    isSplitAt afterEleven [10, 5] = false ∧
    leafValueAt afterEleven [10, 5, 0, 0] = some 0 ∧
    (push 10 dstPlusOne 2 afterEleven (pktTo 5)).sibling = 0 :=
  ⟨by decide, by decide, by decide, by decide, by decide⟩
